import Mathlib

/-!
Shallow embedding of the prefix-aware identifier resolver of
`src/numbat/src/prefix_parser.rs`.

Strings are modelled as lists of characters (matching on valid UTF-8 is
the same at byte level and at character level).  The `HashMap` of units
is modelled as an association list with insert-replaces semantics, the
`HashSet` of other identifiers as a list with set-flavoured insert.  The
`Span` argument of the registration functions only decorates the
diagnostic attached to an `IdentifierClash` error and is omitted; the
error carries the offending name, as in the source.
-/

namespace Numbat

/-- Strings, modelled as lists of characters. -/
abbrev Str := List Char

/-- Modelled from the spec: the `Prefix` type lives in `prefix.rs`, which is
not part of the source excerpt.  Per spec section 3 it is a tagged value, one
of `Metric(exponent)` or `Binary(exponent)`, plus a distinguished `none`
value denoting the absence of a prefix, with helpers `is_metric` and
`is_binary`. -/
inductive Pfx where
  | Metric : Int → Pfx
  | Binary : Int → Pfx
  | none : Pfx
deriving DecidableEq

/-- Modelled from the spec: `Metric` values are metric, `Binary` values are
not; the helper is only ever applied to entries of the static table, which
are never `none`. -/
def Pfx.is_metric : Pfx → Bool
  | .Metric _ => true
  | _ => false

/-- Modelled from the spec: `Binary` values are binary. -/
def Pfx.is_binary : Pfx → Bool
  | .Binary _ => true
  | _ => false

/-- `AcceptsPrefix` from the source: which spelling forms (long and/or
short) a unit admits. Field order as in the Rust struct. -/
structure AcceptsPrefix where
  short : Bool
  long : Bool
deriving DecidableEq

def AcceptsPrefix.only_long : AcceptsPrefix := ⟨false, true⟩

def AcceptsPrefix.only_short : AcceptsPrefix := ⟨true, false⟩

def AcceptsPrefix.both : AcceptsPrefix := ⟨true, true⟩

def AcceptsPrefix.none : AcceptsPrefix := ⟨false, false⟩

/-- `UnitInfo` from the source (the field `accepts_prefix` is spelled
`acceptsPrefix` here). -/
structure UnitInfo where
  acceptsPrefix : AcceptsPrefix
  metric_prefixes : Bool
  binary_prefixes : Bool
  full_name : Str
deriving DecidableEq

/-- The unit registry: association list modelling `HashMap<String, UnitInfo>`. -/
abbrev Units := List (Str × UnitInfo)

/-- `PrefixParser` state from the source. -/
structure PrefixParser where
  units : Units
  other_identifiers : List Str
deriving DecidableEq

/-- `PrefixParser::new`. -/
def PrefixParser.new : PrefixParser := ⟨[], []⟩

/-- Modelled from the spec: `NameResolutionError` lives in
`name_resolution.rs`, not part of the excerpt; per spec section 7 the single
relevant kind is `IdentifierClash` carrying the offending name (the attached
diagnostic is rendering-only and omitted). -/
inductive NameResolutionError where
  | IdentifierClash : Str → NameResolutionError
deriving DecidableEq

/-- `PrefixParserResult` from the source. -/
inductive PrefixParserResult where
  | Identifier : Str → PrefixParserResult
  | UnitIdentifier : Pfx → Str → Str → PrefixParserResult
deriving DecidableEq

/-- The static table of `PrefixParser::prefixes`, in declaration order:
`(long, short, kind)`. -/
def table : List (Str × Str × Pfx) := [
  ("quecto".toList, "q".toList, Pfx.Metric (-30)),
  ("ronto".toList, "r".toList, Pfx.Metric (-27)),
  ("yocto".toList, "y".toList, Pfx.Metric (-24)),
  ("zepto".toList, "z".toList, Pfx.Metric (-21)),
  ("atto".toList, "a".toList, Pfx.Metric (-18)),
  ("femto".toList, "f".toList, Pfx.Metric (-15)),
  ("pico".toList, "p".toList, Pfx.Metric (-12)),
  ("nano".toList, "n".toList, Pfx.Metric (-9)),
  ("micro".toList, "µ".toList, Pfx.Metric (-6)),
  ("milli".toList, "m".toList, Pfx.Metric (-3)),
  ("centi".toList, "c".toList, Pfx.Metric (-2)),
  ("deci".toList, "d".toList, Pfx.Metric (-1)),
  ("deca".toList, "da".toList, Pfx.Metric 1),
  ("hecto".toList, "h".toList, Pfx.Metric 2),
  ("kilo".toList, "k".toList, Pfx.Metric 3),
  ("mega".toList, "M".toList, Pfx.Metric 6),
  ("giga".toList, "G".toList, Pfx.Metric 9),
  ("tera".toList, "T".toList, Pfx.Metric 12),
  ("peta".toList, "P".toList, Pfx.Metric 15),
  ("exa".toList, "E".toList, Pfx.Metric 18),
  ("zetta".toList, "Z".toList, Pfx.Metric 21),
  ("yotta".toList, "Y".toList, Pfx.Metric 24),
  ("ronna".toList, "R".toList, Pfx.Metric 27),
  ("quetta".toList, "Q".toList, Pfx.Metric 30),
  ("kibi".toList, "Ki".toList, Pfx.Binary 10),
  ("mebi".toList, "Mi".toList, Pfx.Binary 20),
  ("gibi".toList, "Gi".toList, Pfx.Binary 30),
  ("tebi".toList, "Ti".toList, Pfx.Binary 40),
  ("pebi".toList, "Pi".toList, Pfx.Binary 50),
  ("exbi".toList, "Ei".toList, Pfx.Binary 60),
  ("zebi".toList, "Zi".toList, Pfx.Binary 70),
  ("yobi".toList, "Yi".toList, Pfx.Binary 80)]

/-- The family condition `kind.is_metric() && metric || kind.is_binary() && binary`
shared by `add_unit` (over the requested flags) and `parse` (over a unit's
stored flags). -/
def family_matches (k : Pfx) (metric binary : Bool) : Bool :=
  (k.is_metric && metric) || (k.is_binary && binary)

/-- First registry entry with the given key, modelling `HashMap` key lookup. -/
def findEntry (us : Units) (key : Str) : Option (Str × UnitInfo) :=
  us.find? fun e => e.1 == key

/-- `self.units.get(key)`. -/
def unitsGet (us : Units) (key : Str) : Option UnitInfo :=
  (findEntry us key).map fun e => e.2

/-- The `self.units.get(&unit_name).unwrap().full_name.clone()` step of
`parse`; the `none` branch models the panic of `.unwrap()` and is proved
unreachable whenever the guard of the surrounding branch holds. -/
def lookupFullName (us : Units) (key : Str) : Str :=
  match findEntry us key with
  | some e => e.2.full_name
  | Option.none => []

/-- Guard of the long-form branch of `parse` for one table entry:
`input.starts_with(prefix_long)` together with the filtered `any` over the
registry. -/
def longMatches (us : Units) (k : Pfx) (pl input : Str) : Bool :=
  pl.isPrefixOf input &&
    us.any fun e =>
      (e.2.acceptsPrefix.long && family_matches k e.2.metric_prefixes e.2.binary_prefixes) &&
        e.1 == input.drop pl.length

/-- Guard of the short-form branch of `parse` for one table entry. -/
def shortMatches (us : Units) (k : Pfx) (ps input : Str) : Bool :=
  ps.isPrefixOf input &&
    us.any fun e =>
      (e.2.acceptsPrefix.short && family_matches k e.2.metric_prefixes e.2.binary_prefixes) &&
        e.1 == input.drop ps.length

/-- One iteration of the loop of `parse` over a table entry `(long, short, kind)`:
the long-form branch, then the short-form branch, else no match. -/
def parseStep (us : Units) (input : Str) (e : Str × Str × Pfx) : Option PrefixParserResult :=
  if longMatches us e.2.2 e.1 input then
    some (.UnitIdentifier e.2.2 (input.drop e.1.length) (lookupFullName us (input.drop e.1.length)))
  else if shortMatches us e.2.2 e.2.1 input then
    some (.UnitIdentifier e.2.2 (input.drop e.2.1.length) (lookupFullName us (input.drop e.2.1.length)))
  else Option.none

/-- The loop of `parse` over the table: first matching entry wins. -/
def parseLoop (us : Units) (input : Str) : List (Str × Str × Pfx) → PrefixParserResult
  | [] => .Identifier input
  | e :: rest =>
    match parseStep us input e with
    | some r => r
    | Option.none => parseLoop us input rest

/-- `PrefixParser::parse`: exact registry match first, then the prefix loop. -/
def PrefixParser.parse (p : PrefixParser) (input : Str) : PrefixParserResult :=
  match unitsGet p.units input with
  | some info => .UnitIdentifier Pfx.none input info.full_name
  | Option.none => parseLoop p.units input table

/-- `PrefixParser::ensure_name_is_available`. -/
def ensure_name_is_available (p : PrefixParser) (name : Str) :
    Except NameResolutionError Unit :=
  if name ∈ p.other_identifiers then .error (.IdentifierClash name)
  else
    match p.parse name with
    | .Identifier _ => .ok ()
    | .UnitIdentifier _ _ _ => .error (.IdentifierClash name)

/-- The loop of `add_unit` over the table: for every entry whose family is
selected, collision-check the admitted prefixed forms, aborting on the first
error. -/
def check_prefixed_forms (p : PrefixParser) (unit_name : Str) (ap : AcceptsPrefix)
    (metric binary : Bool) : List (Str × Str × Pfx) → Except NameResolutionError Unit
  | [] => .ok ()
  | e :: rest =>
    if family_matches e.2.2 metric binary then
      match (if ap.long then ensure_name_is_available p (e.1 ++ unit_name) else .ok ()) with
      | .error err => .error err
      | .ok _ =>
        match (if ap.short then ensure_name_is_available p (e.2.1 ++ unit_name) else .ok ()) with
        | .error err => .error err
        | .ok _ => check_prefixed_forms p unit_name ap metric binary rest
    else check_prefixed_forms p unit_name ap metric binary rest

/-- `HashMap::insert`: replaces any entry under the same key. -/
def unitsInsert (us : Units) (key : Str) (v : UnitInfo) : Units :=
  (key, v) :: us.filter fun e => !(e.1 == key)

/-- `PrefixParser::add_unit`, as a function from the pre-state to the
result of the call together with the post-state (the `&mut self` of the
source made explicit); every early error return leaves the state as it was. -/
def add_unit (p : PrefixParser) (unit_name : Str) (ap : AcceptsPrefix)
    (metric binary : Bool) (full_name : Str) :
    Except NameResolutionError Unit × PrefixParser :=
  match ensure_name_is_available p unit_name with
  | .error e => (.error e, p)
  | .ok _ =>
    match check_prefixed_forms p unit_name ap metric binary table with
    | .error e => (.error e, p)
    | .ok _ =>
      (.ok (), ⟨unitsInsert p.units unit_name ⟨ap, metric, binary, full_name⟩,
        p.other_identifiers⟩)

/-- `PrefixParser::add_other_identifier`; the second branch models
`HashSet::insert` returning `false` (and leaving the set unchanged) when the
element is already present. -/
def add_other_identifier (p : PrefixParser) (identifier : Str) :
    Except NameResolutionError Unit × PrefixParser :=
  match ensure_name_is_available p identifier with
  | .error e => (.error e, p)
  | .ok _ =>
    if identifier ∈ p.other_identifiers then (.error (.IdentifierClash identifier), p)
    else (.ok (), ⟨p.units, identifier :: p.other_identifiers⟩)

/-- Parser states reachable from the empty parser by successful
registrations. -/
inductive Reachable : PrefixParser → Prop where
  | new : Reachable PrefixParser.new
  | addUnit : ∀ p u ap m b fn, Reachable p → (add_unit p u ap m b fn).1 = .ok () →
      Reachable (add_unit p u ap m b fn).2
  | addOther : ∀ p i, Reachable p → (add_other_identifier p i).1 = .ok () →
      Reachable (add_other_identifier p i).2

/-- The registry keys are pairwise distinct (representation invariant of the
`HashMap`). -/
def KeysNodup (us : Units) : Prop := (us.map fun e => e.1).Nodup

instance (us : Units) : Decidable (KeysNodup us) := by
  unfold KeysNodup
  infer_instance

/-- The string `t` is an admitted prefixed form of the registered unit `U`:
some table entry of a family selected by the flags of `U` decomposes `t` as
that entry's long (resp. short) spelling followed by `U`, with the matching
form accepted by `U`. -/
def Admits (us : Units) (t U : Str) : Prop :=
  ∃ info pl ps k, (pl, ps, k) ∈ table ∧ (U, info) ∈ us ∧
    family_matches k info.metric_prefixes info.binary_prefixes = true ∧
    ((info.acceptsPrefix.long = true ∧ t = pl ++ U) ∨
      (info.acceptsPrefix.short = true ∧ t = ps ++ U))

/-- The string `t` is claimed by nothing but the prefixed forms of `U`
itself: it is not a registered unit name, not an other identifier, and not
an admitted prefixed form of a different unit. -/
def NotOtherwiseClaimed (p : PrefixParser) (t U : Str) : Prop :=
  unitsGet p.units t = Option.none ∧ t ∉ p.other_identifiers ∧
    ∀ V, V ≠ U → ¬ Admits p.units t V

/-- The seed registrations of the test scenario. -/
def meterS : Str := "meter".toList

def mS : Str := "m".toList

def byteS : Str := "byte".toList

def bS : Str := "B".toList

def meS : Str := "me".toList

def s1 : Except NameResolutionError Unit × PrefixParser :=
  add_unit PrefixParser.new meterS AcceptsPrefix.only_long true false meterS

def s2 : Except NameResolutionError Unit × PrefixParser :=
  add_unit s1.2 mS AcceptsPrefix.only_short true false meterS

def s3 : Except NameResolutionError Unit × PrefixParser :=
  add_unit s2.2 byteS AcceptsPrefix.only_long true true byteS

def s4 : Except NameResolutionError Unit × PrefixParser :=
  add_unit s3.2 bS AcceptsPrefix.only_short true true byteS

def s5 : Except NameResolutionError Unit × PrefixParser :=
  add_unit s4.2 meS AcceptsPrefix.only_short false false meS

def seedParser : PrefixParser := s5.2

/-- A two-unit registry exercising the long-form/short-form tie inside one
table entry: with units `x` (long, metric) and `ilox` (short, metric), the
token `kilox` decomposes both as `kilo ++ x` and as `k ++ ilox`. -/
def xS : Str := "x".toList

def iloxS : Str := "ilox".toList

def p9 : PrefixParser :=
  ⟨[(xS, ⟨AcceptsPrefix.only_long, true, false, xS⟩),
    (iloxS, ⟨AcceptsPrefix.only_short, true, false, iloxS⟩)], []⟩

deriving instance DecidableEq for Except

/- ### Helper lemmas -/

theorem find?_filter_of_imp {α} (p q : α → Bool) (l : List α)
    (h : ∀ e, p e = true → q e = true) :
    (l.filter q).find? p = l.find? p := by
  induction l with
  | nil => rfl
  | cons a l ih =>
    by_cases hq : q a = true
    · rw [List.filter_cons_of_pos hq]
      by_cases hp : p a = true
      · rw [List.find?_cons_of_pos _ hp, List.find?_cons_of_pos _ hp]
      · rw [List.find?_cons_of_neg _ hp, List.find?_cons_of_neg _ hp, ih]
    · have hp : ¬ p a = true := fun hpa => hq (h a hpa)
      rw [List.filter_cons_of_neg hq, List.find?_cons_of_neg _ hp, ih]

theorem unitsGet_insert_self (us : Units) (k : Str) (v : UnitInfo) :
    unitsGet (unitsInsert us k v) k = some v := by
  simp [unitsGet, findEntry, unitsInsert]

theorem findEntry_insert_ne (us : Units) (k k2 : Str) (v : UnitInfo) (h : k2 ≠ k) :
    findEntry (unitsInsert us k v) k2 = findEntry us k2 := by
  unfold findEntry unitsInsert
  rw [List.find?_cons_of_neg _ (by simpa using fun he => h he.symm)]
  exact find?_filter_of_imp _ _ us fun e he => by
    have : e.1 = k2 := by simpa using he
    simpa [this] using h

theorem unitsGet_insert_ne (us : Units) (k k2 : Str) (v : UnitInfo) (h : k2 ≠ k) :
    unitsGet (unitsInsert us k v) k2 = unitsGet us k2 := by
  unfold unitsGet
  rw [findEntry_insert_ne us k k2 v h]

theorem mem_unitsInsert (us : Units) (k U : Str) (v i : UnitInfo) :
    (U, i) ∈ unitsInsert us k v ↔ (U = k ∧ i = v) ∨ ((U, i) ∈ us ∧ U ≠ k) := by
  unfold unitsInsert
  rw [List.mem_cons, List.mem_filter]
  simp [Prod.ext_iff]

theorem keysNodup_insert (us : Units) (k : Str) (v : UnitInfo) (h : KeysNodup us) :
    KeysNodup (unitsInsert us k v) := by
  unfold KeysNodup unitsInsert
  rw [List.map_cons, List.nodup_cons]
  constructor
  · intro hk
    obtain ⟨e, he, hke⟩ := List.mem_map.mp hk
    have := (List.mem_filter.mp he).2
    rw [hke] at this
    simp at this
  · exact List.Nodup.sublist (List.Sublist.map _ (List.filter_sublist us)) h

theorem mem_of_unitsGet (us : Units) (U : Str) (i : UnitInfo)
    (h : unitsGet us U = some i) : (U, i) ∈ us := by
  unfold unitsGet findEntry at h
  cases hf : us.find? (fun e => e.1 == U) with
  | none => rw [hf] at h; cases h
  | some e =>
    rw [hf] at h
    have hm := List.mem_of_find?_eq_some hf
    have hp : e.1 = U := by simpa using List.find?_some hf
    have hi : e.2 = i := by simpa using h
    obtain ⟨a, b⟩ := e
    rwa [show a = U from hp, show b = i from hi] at hm

theorem unitsGet_of_mem (us : Units) (U : Str) (i : UnitInfo) (hn : KeysNodup us)
    (h : (U, i) ∈ us) : unitsGet us U = some i := by
  induction us with
  | nil => cases h
  | cons e rest ih =>
    rw [KeysNodup, List.map_cons, List.nodup_cons] at hn
    rcases List.mem_cons.mp h with he | hrest
    · rw [← he]
      simp [unitsGet, findEntry]
    · have hne : e.1 ≠ U := by
        intro hEq
        exact hn.1 (hEq ▸ List.mem_map.mpr ⟨(U, i), hrest, rfl⟩)
      unfold unitsGet findEntry
      rw [List.find?_cons_of_neg _ (by simpa using hne)]
      exact ih hn.2 hrest

theorem unitsGet_isSome_of_mem (us : Units) (U : Str) (i : UnitInfo) (h : (U, i) ∈ us) :
    (unitsGet us U).isSome = true := by
  have hs : (us.find? fun e => e.1 == U).isSome = true :=
    List.find?_isSome.mpr ⟨(U, i), h, by simp⟩
  unfold unitsGet findEntry
  cases hf : us.find? (fun e => e.1 == U) with
  | none => rw [hf] at hs; cases hs
  | some e => rfl

theorem append_ne_self (pl U : Str) (h : pl ≠ []) : pl ++ U ≠ U := by
  intro he
  have hlen : (pl ++ U).length = U.length := by rw [he]
  rw [List.length_append] at hlen
  have : pl.length = 0 := by omega
  exact h (List.length_eq_zero.mp this)

theorem table_spellings_ne_nil : ∀ e ∈ table, e.1 ≠ ([] : Str) ∧ e.2.1 ≠ ([] : Str) := by
  decide

theorem family_matches_bits (k : Pfx) (mm bb : Bool)
    (h : family_matches k mm bb = true) :
    (k.is_metric = true → mm = true) ∧ (k.is_binary = true → bb = true) := by
  cases k <;> simp_all [family_matches, Pfx.is_metric, Pfx.is_binary]

theorem longMatches_iff (us : Units) (k : Pfx) (pl input : Str) :
    longMatches us k pl input = true ↔
      pl <+: input ∧ ∃ U info, (U, info) ∈ us ∧ info.acceptsPrefix.long = true ∧
        family_matches k info.metric_prefixes info.binary_prefixes = true ∧
        U = input.drop pl.length := by
  unfold longMatches
  rw [Bool.and_eq_true, List.isPrefixOf_iff_prefix, List.any_eq_true]
  constructor
  · rintro ⟨hp, ⟨U, info⟩, hmem, hcond⟩
    rw [Bool.and_eq_true, Bool.and_eq_true, beq_iff_eq] at hcond
    exact ⟨hp, U, info, hmem, hcond.1.1, hcond.1.2, hcond.2⟩
  · rintro ⟨hp, U, info, hmem, h1, h2, h3⟩
    refine ⟨hp, ⟨(U, info), hmem, ?_⟩⟩
    rw [Bool.and_eq_true, Bool.and_eq_true, beq_iff_eq]
    exact ⟨⟨h1, h2⟩, h3⟩

theorem shortMatches_iff (us : Units) (k : Pfx) (ps input : Str) :
    shortMatches us k ps input = true ↔
      ps <+: input ∧ ∃ U info, (U, info) ∈ us ∧ info.acceptsPrefix.short = true ∧
        family_matches k info.metric_prefixes info.binary_prefixes = true ∧
        U = input.drop ps.length := by
  unfold shortMatches
  rw [Bool.and_eq_true, List.isPrefixOf_iff_prefix, List.any_eq_true]
  constructor
  · rintro ⟨hp, ⟨U, info⟩, hmem, hcond⟩
    rw [Bool.and_eq_true, Bool.and_eq_true, beq_iff_eq] at hcond
    exact ⟨hp, U, info, hmem, hcond.1.1, hcond.1.2, hcond.2⟩
  · rintro ⟨hp, U, info, hmem, h1, h2, h3⟩
    refine ⟨hp, ⟨(U, info), hmem, ?_⟩⟩
    rw [Bool.and_eq_true, Bool.and_eq_true, beq_iff_eq]
    exact ⟨⟨h1, h2⟩, h3⟩

theorem parseStep_some_shape (us : Units) (input : Str) (e : Str × Str × Pfx)
    (r : PrefixParserResult) (h : parseStep us input e = some r) :
    ∃ k u f, r = .UnitIdentifier k u f := by
  unfold parseStep at h
  by_cases hl : longMatches us e.2.2 e.1 input = true
  · rw [if_pos hl] at h
    exact ⟨_, _, _, (Option.some.inj h).symm⟩
  · rw [if_neg hl] at h
    by_cases hs : shortMatches us e.2.2 e.2.1 input = true
    · rw [if_pos hs] at h
      exact ⟨_, _, _, (Option.some.inj h).symm⟩
    · rw [if_neg hs] at h
      cases h

theorem parseStep_some_inv (us : Units) (input pl ps : Str) (k : Pfx)
    (r : PrefixParserResult) (h : parseStep us input (pl, ps, k) = some r) :
    (longMatches us k pl input = true ∧
      r = .UnitIdentifier k (input.drop pl.length) (lookupFullName us (input.drop pl.length))) ∨
    (shortMatches us k ps input = true ∧
      r = .UnitIdentifier k (input.drop ps.length) (lookupFullName us (input.drop ps.length))) := by
  unfold parseStep at h
  by_cases hl : longMatches us k pl input = true
  · rw [if_pos hl] at h
    exact .inl ⟨hl, (Option.some.inj h).symm⟩
  · rw [if_neg hl] at h
    by_cases hs : shortMatches us k ps input = true
    · rw [if_pos hs] at h
      exact .inr ⟨hs, (Option.some.inj h).symm⟩
    · rw [if_neg hs] at h
      cases h

theorem parseStep_eq_none_iff (us : Units) (input pl ps : Str) (k : Pfx) :
    parseStep us input (pl, ps, k) = Option.none ↔
      longMatches us k pl input = false ∧ shortMatches us k ps input = false := by
  unfold parseStep
  cases hl : longMatches us k pl input with
  | true => simp [hl]
  | false =>
    cases hs : shortMatches us k ps input with
    | true => simp [hl, hs]
    | false => simp [hl, hs]

theorem parseLoop_eq_identifier_iff (us : Units) (input : Str)
    (entries : List (Str × Str × Pfx)) :
    parseLoop us input entries = .Identifier input ↔
      ∀ e ∈ entries, parseStep us input e = Option.none := by
  induction entries with
  | nil => simp [parseLoop]
  | cons e rest ih =>
    rw [List.forall_mem_cons]
    cases hstep : parseStep us input e with
    | none =>
      have hred : parseLoop us input (e :: rest) = parseLoop us input rest := by
        simp only [parseLoop, hstep]
      rw [hred, ih]
      exact ⟨fun h2 => ⟨rfl, h2⟩, fun h2 => h2.2⟩
    | some r =>
      obtain ⟨k, u, f, rfl⟩ := parseStep_some_shape us input e r hstep
      have hred : parseLoop us input (e :: rest) = .UnitIdentifier k u f := by
        simp only [parseLoop, hstep]
      rw [hred]
      constructor
      · intro hcontra
        cases hcontra
      · rintro ⟨h1, -⟩
        cases h1

theorem parseLoop_append_none (us : Units) (input : Str)
    (pre rest : List (Str × Str × Pfx))
    (h : ∀ e ∈ pre, parseStep us input e = Option.none) :
    parseLoop us input (pre ++ rest) = parseLoop us input rest := by
  induction pre with
  | nil => rfl
  | cons e p ih =>
    rw [List.cons_append]
    have hred : parseLoop us input (e :: (p ++ rest)) = parseLoop us input (p ++ rest) := by
      simp only [parseLoop, h e (by simp)]
    rw [hred]
    exact ih fun e2 he2 => h e2 (by simp [he2])

theorem parseLoop_result (us : Units) (input : Str) (entries : List (Str × Str × Pfx)) :
    parseLoop us input entries = .Identifier input ∨
      ∃ e ∈ entries, parseStep us input e = some (parseLoop us input entries) := by
  induction entries with
  | nil => exact .inl rfl
  | cons e rest ih =>
    cases hstep : parseStep us input e with
    | none =>
      have hred : parseLoop us input (e :: rest) = parseLoop us input rest := by
        simp only [parseLoop, hstep]
      rw [hred]
      rcases ih with h | ⟨e2, he2, hs2⟩
      · exact .inl h
      · exact .inr ⟨e2, by simp [he2], hs2⟩
    | some r =>
      have hred : parseLoop us input (e :: rest) = r := by
        simp only [parseLoop, hstep]
      rw [hred]
      exact .inr ⟨e, by simp, hstep⟩

theorem parse_of_unitsGet_some (p : PrefixParser) (input : Str) (i : UnitInfo)
    (h : unitsGet p.units input = some i) :
    p.parse input = .UnitIdentifier Pfx.none input i.full_name := by
  unfold PrefixParser.parse
  rw [h]

theorem parse_of_unitsGet_none (p : PrefixParser) (input : Str)
    (h : unitsGet p.units input = Option.none) :
    p.parse input = parseLoop p.units input table := by
  unfold PrefixParser.parse
  rw [h]

theorem parse_cases (p : PrefixParser) (s : Str) :
    p.parse s = .Identifier s ∨ ∃ k u f, p.parse s = .UnitIdentifier k u f := by
  cases hg : unitsGet p.units s with
  | some i => exact .inr ⟨_, _, _, parse_of_unitsGet_some p s i hg⟩
  | none =>
    rw [parse_of_unitsGet_none p s hg]
    rcases parseLoop_result p.units s table with h | ⟨e, he, hs⟩
    · exact .inl h
    · obtain ⟨k, u, f, hr⟩ := parseStep_some_shape _ _ _ _ hs
      exact .inr ⟨k, u, f, hr⟩

theorem step_ne_none_of_admits (us : Units) (t U : Str) (h : Admits us t U) :
    ∃ e ∈ table, parseStep us t e ≠ Option.none := by
  obtain ⟨info, pl, ps, k, htab, hmem, hfam, harm⟩ := h
  refine ⟨(pl, ps, k), htab, ?_⟩
  rw [Ne, parseStep_eq_none_iff]
  rintro ⟨hl, hs⟩
  rcases harm with ⟨hbit, rfl⟩ | ⟨hbit, rfl⟩
  · have hlt : longMatches us k pl (pl ++ U) = true := by
      rw [longMatches_iff]
      exact ⟨List.prefix_append pl U, U, info, hmem, hbit, hfam, (List.drop_left pl U).symm⟩
    rw [hlt] at hl
    cases hl
  · have hst : shortMatches us k ps (ps ++ U) = true := by
      rw [shortMatches_iff]
      exact ⟨List.prefix_append ps U, U, info, hmem, hbit, hfam, (List.drop_left ps U).symm⟩
    rw [hst] at hs
    cases hs

theorem admits_of_step_ne_none (us : Units) (t : Str) (e : Str × Str × Pfx)
    (he : e ∈ table) (h : parseStep us t e ≠ Option.none) : ∃ U, Admits us t U := by
  obtain ⟨pl, ps, k⟩ := e
  rw [Ne, parseStep_eq_none_iff] at h
  cases hl : longMatches us k pl t with
  | true =>
    rw [longMatches_iff] at hl
    obtain ⟨hp, U, info, hmem, hbit, hfam, hU⟩ := hl
    refine ⟨U, info, pl, ps, k, he, hmem, hfam, .inl ⟨hbit, ?_⟩⟩
    rw [hU]
    exact (List.prefix_iff_eq_append.mp hp).symm
  | false =>
    cases hs : shortMatches us k ps t with
    | true =>
      rw [shortMatches_iff] at hs
      obtain ⟨hp, U, info, hmem, hbit, hfam, hU⟩ := hs
      refine ⟨U, info, pl, ps, k, he, hmem, hfam, .inr ⟨hbit, ?_⟩⟩
      rw [hU]
      exact (List.prefix_iff_eq_append.mp hp).symm
    | false => exact absurd ⟨hl, hs⟩ h

theorem parse_eq_identifier_iff (p : PrefixParser) (t : Str) :
    p.parse t = .Identifier t ↔
      unitsGet p.units t = Option.none ∧ ∀ U, ¬ Admits p.units t U := by
  cases hg : unitsGet p.units t with
  | some i =>
    rw [parse_of_unitsGet_some p t i hg]
    simp
  | none =>
    rw [parse_of_unitsGet_none p t hg, parseLoop_eq_identifier_iff]
    constructor
    · intro hall
      refine ⟨rfl, fun U hU => ?_⟩
      obtain ⟨e, he, hne⟩ := step_ne_none_of_admits p.units t U hU
      exact hne (hall e he)
    · rintro ⟨-, hnone⟩ e he
      cases hstep : parseStep p.units t e with
      | none => rfl
      | some r =>
        obtain ⟨U, hU⟩ := admits_of_step_ne_none p.units t e he (by rw [hstep]; simp)
        exact absurd hU (hnone U)

theorem parse_identifier_payload (p : PrefixParser) (t s : Str)
    (h : p.parse t = .Identifier s) : s = t := by
  rcases parse_cases p t with hid | ⟨k, u, f, hun⟩
  · rw [hid] at h
    exact (PrefixParserResult.Identifier.inj h).symm
  · rw [hun] at h
    cases h

theorem ensure_ok_iff (p : PrefixParser) (name : Str) :
    ensure_name_is_available p name = .ok () ↔
      name ∉ p.other_identifiers ∧ p.parse name = .Identifier name := by
  unfold ensure_name_is_available
  by_cases hmem : name ∈ p.other_identifiers
  · simp [hmem]
  · rw [if_neg hmem]
    rcases parse_cases p name with hid | ⟨k, u, f, hun⟩
    · rw [hid]
      simp [hmem, hid]
    · rw [hun]
      simp [hmem, hun]

theorem ensure_ok_unclaimed (p : PrefixParser) (name : Str)
    (h : ensure_name_is_available p name = .ok ()) :
    name ∉ p.other_identifiers ∧ unitsGet p.units name = Option.none ∧
      ∀ U, ¬ Admits p.units name U := by
  obtain ⟨hmem, hid⟩ := (ensure_ok_iff p name).mp h
  obtain ⟨hg, ha⟩ := (parse_eq_identifier_iff p name).mp hid
  exact ⟨hmem, hg, ha⟩

theorem check_ok_spec (p : PrefixParser) (u : Str) (ap : AcceptsPrefix) (m b : Bool)
    (entries : List (Str × Str × Pfx))
    (h : check_prefixed_forms p u ap m b entries = .ok ()) :
    ∀ e ∈ entries, family_matches e.2.2 m b = true →
      (ap.long = true → ensure_name_is_available p (e.1 ++ u) = .ok ()) ∧
      (ap.short = true → ensure_name_is_available p (e.2.1 ++ u) = .ok ()) := by
  induction entries with
  | nil =>
    intro e he
    cases he
  | cons e0 rest ih =>
    intro e he hfam
    unfold check_prefixed_forms at h
    by_cases hf0 : family_matches e0.2.2 m b = true
    · rw [if_pos hf0] at h
      cases hc1 : (if ap.long then ensure_name_is_available p (e0.1 ++ u) else .ok ()) with
      | error err =>
        rw [hc1] at h
        cases h
      | ok v =>
        cases v
        rw [hc1] at h
        cases hc2 : (if ap.short then ensure_name_is_available p (e0.2.1 ++ u) else .ok ()) with
        | error err =>
          rw [hc2] at h
          cases h
        | ok v2 =>
          cases v2
          rw [hc2] at h
          rcases List.mem_cons.mp he with heq | hrest
          · subst heq
            constructor
            · intro hlong
              rw [if_pos hlong] at hc1
              exact hc1
            · intro hshort
              rw [if_pos hshort] at hc2
              exact hc2
          · exact ih h e hrest hfam
    · rw [if_neg hf0] at h
      rcases List.mem_cons.mp he with heq | hrest
      · subst heq
        exact absurd hfam hf0
      · exact ih h e hrest hfam

theorem add_unit_ok_inv (p : PrefixParser) (u : Str) (ap : AcceptsPrefix)
    (m b : Bool) (fn : Str) (h : (add_unit p u ap m b fn).1 = .ok ()) :
    ensure_name_is_available p u = .ok () ∧
      check_prefixed_forms p u ap m b table = .ok () ∧
      (add_unit p u ap m b fn).2 =
        ⟨unitsInsert p.units u ⟨ap, m, b, fn⟩, p.other_identifiers⟩ := by
  unfold add_unit at h
  cases h1 : ensure_name_is_available p u with
  | error e =>
    rw [h1] at h
    cases h
  | ok v =>
    rw [h1] at h
    cases h2 : check_prefixed_forms p u ap m b table with
    | error e =>
      rw [h2] at h
      cases h
    | ok v2 =>
      refine ⟨rfl, rfl, ?_⟩
      unfold add_unit
      rw [h1, h2]

theorem add_other_ok_inv (p : PrefixParser) (i : Str)
    (h : (add_other_identifier p i).1 = .ok ()) :
    ensure_name_is_available p i = .ok () ∧ i ∉ p.other_identifiers ∧
      (add_other_identifier p i).2 = ⟨p.units, i :: p.other_identifiers⟩ := by
  unfold add_other_identifier at h
  cases h1 : ensure_name_is_available p i with
  | error e =>
    rw [h1] at h
    cases h
  | ok v =>
    rw [h1] at h
    by_cases hm : i ∈ p.other_identifiers
    · rw [if_pos hm] at h
      cases h
    · refine ⟨rfl, hm, ?_⟩
      unfold add_other_identifier
      rw [h1, if_neg hm]

theorem reachable_keysNodup (p : PrefixParser) (h : Reachable p) : KeysNodup p.units := by
  induction h with
  | new => exact List.nodup_nil
  | addUnit q u ap m b fn hr hok ih =>
    obtain ⟨-, -, heq⟩ := add_unit_ok_inv q u ap m b fn hok
    rw [heq]
    exact keysNodup_insert q.units u _ ih
  | addOther q i hr hok ih =>
    obtain ⟨-, -, heq⟩ := add_other_ok_inv q i hok
    rw [heq]
    exact ih

theorem admits_insert_elim (us : Units) (k : Str) (v : UnitInfo) (t V : Str)
    (h : Admits (unitsInsert us k v) t V) :
    (V = k ∧ ∃ pl ps kk, (pl, ps, kk) ∈ table ∧
        family_matches kk v.metric_prefixes v.binary_prefixes = true ∧
        ((v.acceptsPrefix.long = true ∧ t = pl ++ k) ∨
          (v.acceptsPrefix.short = true ∧ t = ps ++ k))) ∨
      (V ≠ k ∧ Admits us t V) := by
  obtain ⟨info, pl, ps, kk, htab, hmem, hfam, harm⟩ := h
  rcases (mem_unitsInsert us k V v info).mp hmem with ⟨hVk, hiv⟩ | ⟨hm, hne⟩
  · subst hVk
    subst hiv
    exact .inl ⟨rfl, pl, ps, kk, htab, hfam, harm⟩
  · exact .inr ⟨hne, info, pl, ps, kk, htab, hm, hfam, harm⟩

theorem admits_long_intro (us : Units) (U : Str) (info : UnitInfo) (pl ps : Str) (k : Pfx)
    (hmem : (U, info) ∈ us) (htab : (pl, ps, k) ∈ table)
    (hfam : family_matches k info.metric_prefixes info.binary_prefixes = true)
    (hbit : info.acceptsPrefix.long = true) : Admits us (pl ++ U) U :=
  ⟨info, pl, ps, k, htab, hmem, hfam, .inl ⟨hbit, rfl⟩⟩

theorem admits_short_intro (us : Units) (U : Str) (info : UnitInfo) (pl ps : Str) (k : Pfx)
    (hmem : (U, info) ∈ us) (htab : (pl, ps, k) ∈ table)
    (hfam : family_matches k info.metric_prefixes info.binary_prefixes = true)
    (hbit : info.acceptsPrefix.short = true) : Admits us (ps ++ U) U :=
  ⟨info, pl, ps, k, htab, hmem, hfam, .inr ⟨hbit, rfl⟩⟩

theorem add_unit_error_inv (p : PrefixParser) (u : Str) (ap : AcceptsPrefix)
    (m b : Bool) (fn : Str) (e1 : NameResolutionError)
    (h : (add_unit p u ap m b fn).1 = .error e1) :
    (add_unit p u ap m b fn).2 = p := by
  unfold add_unit at h ⊢
  cases hc1 : ensure_name_is_available p u with
  | error er => rfl
  | ok v =>
    rw [hc1] at h
    cases hc2 : check_prefixed_forms p u ap m b table with
    | error er => rfl
    | ok v2 =>
      rw [hc2] at h
      cases h

theorem add_other_error_inv (p : PrefixParser) (i : Str) (e2 : NameResolutionError)
    (h : (add_other_identifier p i).1 = .error e2) :
    (add_other_identifier p i).2 = p := by
  unfold add_other_identifier at h ⊢
  cases hc1 : ensure_name_is_available p i with
  | error er => rfl
  | ok v =>
    rw [hc1] at h
    by_cases hm : i ∈ p.other_identifiers
    · show (if i ∈ p.other_identifiers then
          ((Except.error (NameResolutionError.IdentifierClash i) :
            Except NameResolutionError Unit), p)
        else (Except.ok (), (⟨p.units, i :: p.other_identifiers⟩ : PrefixParser))).2 = p
      rw [if_pos hm]
    · exfalso
      have h3 : (if i ∈ p.other_identifiers then
          ((Except.error (NameResolutionError.IdentifierClash i) :
            Except NameResolutionError Unit), p)
        else (Except.ok (), (⟨p.units, i :: p.other_identifiers⟩ : PrefixParser))).1 =
          Except.error e2 := h
      rw [if_neg hm] at h3
      cases h3

theorem seed_reachable : Reachable seedParser := by
  have h1 : Reachable s1.2 :=
    Reachable.addUnit _ _ _ _ _ _ Reachable.new (by decide)
  have h2 : Reachable s2.2 :=
    Reachable.addUnit _ _ _ _ _ _ h1 (by decide)
  have h3 : Reachable s3.2 :=
    Reachable.addUnit _ _ _ _ _ _ h2 (by decide)
  have h4 : Reachable s4.2 :=
    Reachable.addUnit _ _ _ _ _ _ h3 (by decide)
  exact Reachable.addUnit _ _ _ _ _ _ h4 (by decide)

/- ### Claim theorems -/

/-- Claim C7: in every parser state reachable from the empty parser by
successful `add_unit` and `add_other_identifier` calls, no string is
simultaneously a key of the unit registry and a member of the
other-identifier set. -/
theorem units_other_disjoint : ∀ p, Reachable p → ∀ s : Str,
    ¬((unitsGet p.units s).isSome = true ∧ s ∈ p.other_identifiers) := by
  intro p h
  induction h with
  | new =>
    rintro s ⟨-, hmem⟩
    cases hmem
  | addUnit q u ap m b fn hr hok ih =>
    obtain ⟨hens, hchk, heq⟩ := add_unit_ok_inv q u ap m b fn hok
    obtain ⟨hmem0, hg0, -⟩ := ensure_ok_unclaimed q u hens
    rintro s ⟨hsu, hso⟩
    rw [heq] at hsu hso
    by_cases hEq : s = u
    · exact hmem0 (hEq ▸ hso)
    · rw [unitsGet_insert_ne q.units u s _ hEq] at hsu
      exact ih s ⟨hsu, hso⟩
  | addOther q i hr hok ih =>
    obtain ⟨hens, hmemi, heq⟩ := add_other_ok_inv q i hok
    obtain ⟨-, hgi, -⟩ := ensure_ok_unclaimed q i hens
    rintro s ⟨hsu, hso⟩
    rw [heq] at hsu hso
    rcases List.mem_cons.mp hso with hEq | hold
    · subst hEq
      rw [hgi] at hsu
      cases hsu
    · exact ih s ⟨hsu, hold⟩

/-- Witness for C7 at the concrete seed parser and the unit name `m`. -/
theorem units_other_disjoint_witness :
    ¬((unitsGet seedParser.units mS).isSome = true ∧
        mS ∈ seedParser.other_identifiers) :=
  units_other_disjoint seedParser seed_reachable mS

/-- Claim C8: in every reachable parser state, every admitted prefixed form
`L ++ U` (resp. `S ++ U`) of a registered unit `U` — for a table entry whose
family is selected by the flags of `U` and a form accepted by `U` — is not
otherwise claimed: it is not a registered unit name, not an other
identifier, and not an admitted prefixed form of a different unit. -/
theorem admitted_forms_unclaimed : ∀ p, Reachable p →
    ∀ U info, unitsGet p.units U = some info →
    ∀ pl ps k, (pl, ps, k) ∈ table →
      family_matches k info.metric_prefixes info.binary_prefixes = true →
      (info.acceptsPrefix.long = true → NotOtherwiseClaimed p (pl ++ U) U) ∧
      (info.acceptsPrefix.short = true → NotOtherwiseClaimed p (ps ++ U) U) := by
  intro p h
  induction h with
  | new =>
    intro U info hget
    cases hget
  | addUnit q u0 ap m b fn hr hok ih =>
    obtain ⟨hens, hchk, heq⟩ := add_unit_ok_inv q u0 ap m b fn hok
    obtain ⟨hmem0, hg0, hadm0⟩ := ensure_ok_unclaimed q u0 hens
    intro U info hget pl ps k htab hfam
    rw [heq] at hget ⊢
    by_cases hU : U = u0
    · subst hU
      have hinfo : info = ⟨ap, m, b, fn⟩ := by
        have hself := unitsGet_insert_self q.units U ⟨ap, m, b, fn⟩
        rw [hself] at hget
        exact (Option.some.inj hget).symm
      subst hinfo
      have hforms := check_ok_spec q U ap m b table hchk (pl, ps, k) htab hfam
      constructor
      · intro hlong
        have hens2 := hforms.1 hlong
        obtain ⟨hm2, hg2, ha2⟩ := ensure_ok_unclaimed q (pl ++ U) hens2
        unfold NotOtherwiseClaimed
        refine ⟨?_, hm2, ?_⟩
        · have hne : pl ++ U ≠ U :=
            append_ne_self pl U (table_spellings_ne_nil (pl, ps, k) htab).1
          rw [unitsGet_insert_ne q.units U (pl ++ U) _ hne]
          exact hg2
        · intro V hV hadm
          rcases admits_insert_elim q.units U _ (pl ++ U) V hadm with ⟨hVu, -⟩ | ⟨-, hadmq⟩
          · exact hV hVu
          · exact ha2 V hadmq
      · intro hshort
        have hens2 := hforms.2 hshort
        obtain ⟨hm2, hg2, ha2⟩ := ensure_ok_unclaimed q (ps ++ U) hens2
        unfold NotOtherwiseClaimed
        refine ⟨?_, hm2, ?_⟩
        · have hne : ps ++ U ≠ U :=
            append_ne_self ps U (table_spellings_ne_nil (pl, ps, k) htab).2
          rw [unitsGet_insert_ne q.units U (ps ++ U) _ hne]
          exact hg2
        · intro V hV hadm
          rcases admits_insert_elim q.units U _ (ps ++ U) V hadm with ⟨hVu, -⟩ | ⟨-, hadmq⟩
          · exact hV hVu
          · exact ha2 V hadmq
    · rw [unitsGet_insert_ne q.units u0 U _ hU] at hget
      have ihU := ih U info hget pl ps k htab hfam
      have hmemU := mem_of_unitsGet q.units U info hget
      constructor
      · intro hlong
        have hAd : Admits q.units (pl ++ U) U :=
          admits_long_intro q.units U info pl ps k hmemU htab hfam hlong
        have ih1 := ihU.1 hlong
        unfold NotOtherwiseClaimed at ih1 ⊢
        obtain ⟨hg1, hm1, hnoadm⟩ := ih1
        refine ⟨?_, hm1, ?_⟩
        · have hne : pl ++ U ≠ u0 := fun he => hadm0 U (he ▸ hAd)
          rw [unitsGet_insert_ne q.units u0 (pl ++ U) _ hne]
          exact hg1
        · intro V hV hadm
          rcases admits_insert_elim q.units u0 _ (pl ++ U) V hadm with
            ⟨hVu, harm⟩ | ⟨-, hadmq⟩
          · subst hVu
            obtain ⟨pl2, ps2, k2, htab2, hfam2, harm2⟩ := harm
            have hforms2 := check_ok_spec q V ap m b table hchk (pl2, ps2, k2) htab2 hfam2
            rcases harm2 with ⟨hbit2, hteq⟩ | ⟨hbit2, hteq⟩
            · obtain ⟨-, -, ha3⟩ := ensure_ok_unclaimed q (pl2 ++ V) (hforms2.1 hbit2)
              exact ha3 U (hteq ▸ hAd)
            · obtain ⟨-, -, ha3⟩ := ensure_ok_unclaimed q (ps2 ++ V) (hforms2.2 hbit2)
              exact ha3 U (hteq ▸ hAd)
          · exact hnoadm V hV hadmq
      · intro hshort
        have hAd : Admits q.units (ps ++ U) U :=
          admits_short_intro q.units U info pl ps k hmemU htab hfam hshort
        have ih1 := ihU.2 hshort
        unfold NotOtherwiseClaimed at ih1 ⊢
        obtain ⟨hg1, hm1, hnoadm⟩ := ih1
        refine ⟨?_, hm1, ?_⟩
        · have hne : ps ++ U ≠ u0 := fun he => hadm0 U (he ▸ hAd)
          rw [unitsGet_insert_ne q.units u0 (ps ++ U) _ hne]
          exact hg1
        · intro V hV hadm
          rcases admits_insert_elim q.units u0 _ (ps ++ U) V hadm with
            ⟨hVu, harm⟩ | ⟨-, hadmq⟩
          · subst hVu
            obtain ⟨pl2, ps2, k2, htab2, hfam2, harm2⟩ := harm
            have hforms2 := check_ok_spec q V ap m b table hchk (pl2, ps2, k2) htab2 hfam2
            rcases harm2 with ⟨hbit2, hteq⟩ | ⟨hbit2, hteq⟩
            · obtain ⟨-, -, ha3⟩ := ensure_ok_unclaimed q (pl2 ++ V) (hforms2.1 hbit2)
              exact ha3 U (hteq ▸ hAd)
            · obtain ⟨-, -, ha3⟩ := ensure_ok_unclaimed q (ps2 ++ V) (hforms2.2 hbit2)
              exact ha3 U (hteq ▸ hAd)
          · exact hnoadm V hV hadmq
  | addOther q i hr hok ih =>
    obtain ⟨hens, hmemi, heq⟩ := add_other_ok_inv q i hok
    obtain ⟨-, hgi, hai⟩ := ensure_ok_unclaimed q i hens
    intro U info hget pl ps k htab hfam
    rw [heq] at hget ⊢
    have ihU := ih U info hget pl ps k htab hfam
    have hmemU := mem_of_unitsGet q.units U info hget
    constructor
    · intro hlong
      have hAd : Admits q.units (pl ++ U) U :=
        admits_long_intro q.units U info pl ps k hmemU htab hfam hlong
      have ih1 := ihU.1 hlong
      unfold NotOtherwiseClaimed at ih1 ⊢
      obtain ⟨hg1, hm1, hnoadm⟩ := ih1
      refine ⟨hg1, ?_, hnoadm⟩
      intro hmem
      rcases List.mem_cons.mp hmem with hEq | hold
      · exact hai U (hEq ▸ hAd)
      · exact hm1 hold
    · intro hshort
      have hAd : Admits q.units (ps ++ U) U :=
        admits_short_intro q.units U info pl ps k hmemU htab hfam hshort
      have ih1 := ihU.2 hshort
      unfold NotOtherwiseClaimed at ih1 ⊢
      obtain ⟨hg1, hm1, hnoadm⟩ := ih1
      refine ⟨hg1, ?_, hnoadm⟩
      intro hmem
      rcases List.mem_cons.mp hmem with hEq | hold
      · exact hai U (hEq ▸ hAd)
      · exact hm1 hold

/-- Witness for C8: in the seed parser, the admitted form `kilo ++ meter` is
not otherwise claimed. -/
theorem admitted_forms_unclaimed_witness :
    NotOtherwiseClaimed seedParser ("kilo".toList ++ meterS) meterS :=
  (admitted_forms_unclaimed seedParser seed_reachable meterS
    ⟨AcceptsPrefix.only_long, true, false, meterS⟩ (by decide)
    "kilo".toList "k".toList (Pfx.Metric 3) (by decide) (by decide)).1 (by decide)

/-- Claim C3: for every registered unit name `u`, `parse u` returns
`UnitIdentifier(none, u, full_name u)`; the exact whole-token match wins over
any prefix decomposition. -/
theorem exact_match_dominance : ∀ (p : PrefixParser) (u : Str) (info : UnitInfo),
    unitsGet p.units u = some info →
    p.parse u = .UnitIdentifier Pfx.none u info.full_name :=
  fun p u info h => parse_of_unitsGet_some p u info h

/-- Witness for C3 at the seed parser and the unit `meter`. -/
theorem exact_match_dominance_witness :
    seedParser.parse meterS = .UnitIdentifier Pfx.none meterS meterS :=
  exact_match_dominance seedParser meterS
    ⟨AcceptsPrefix.only_long, true, false, meterS⟩ (by decide)

/-- Claim C4: `parse` is total and never errors: for every parser state and
every string `s` it returns either `Identifier s'` with `s' = s`, or
`UnitIdentifier p u f` with `u` a registered unit name. -/
theorem parse_total : ∀ (p : PrefixParser) (s : Str),
    (∃ t, p.parse s = .Identifier t ∧ t = s) ∨
      (∃ pr u f, p.parse s = .UnitIdentifier pr u f ∧
        (unitsGet p.units u).isSome = true) := by
  intro p s
  cases hg : unitsGet p.units s with
  | some i =>
    refine .inr ⟨Pfx.none, s, i.full_name, parse_of_unitsGet_some p s i hg, ?_⟩
    rw [hg]
    rfl
  | none =>
    rw [parse_of_unitsGet_none p s hg]
    rcases parseLoop_result p.units s table with hid | ⟨e, he, hstep⟩
    · exact .inl ⟨s, hid, rfl⟩
    · obtain ⟨pl, ps, k⟩ := e
      rcases parseStep_some_inv p.units s pl ps k _ hstep with ⟨hl, hr⟩ | ⟨hs, hr⟩
      · rw [longMatches_iff] at hl
        obtain ⟨-, U, info, hmem, -, -, hU⟩ := hl
        refine .inr ⟨k, s.drop pl.length, _, hr, ?_⟩
        exact unitsGet_isSome_of_mem p.units _ info (hU ▸ hmem)
      · rw [shortMatches_iff] at hs
        obtain ⟨-, U, info, hmem, -, -, hU⟩ := hs
        refine .inr ⟨k, s.drop ps.length, _, hr, ?_⟩
        exact unitsGet_isSome_of_mem p.units _ info (hU ▸ hmem)

/-- Claim C2: prefix-consistency and family gating: when `parse s` yields
`UnitIdentifier pr u f` with `pr` not the distinguished `none`, some table
entry `(pl, ps, pr)` decomposes `s` as `pl ++ u` or `ps ++ u`, `u` is
registered, its accepts bit for the matched form is set, its family bit for
`pr` is set, and in particular a metric (resp. binary) `pr` forces the
metric (resp. binary) flag of `u`. -/
theorem prefix_consistency : ∀ (p : PrefixParser), KeysNodup p.units →
    ∀ (s : Str) (pr : Pfx) (u f : Str),
      p.parse s = .UnitIdentifier pr u f → pr ≠ Pfx.none →
      ∃ pl ps, (pl, ps, pr) ∈ table ∧ ∃ info, unitsGet p.units u = some info ∧
        family_matches pr info.metric_prefixes info.binary_prefixes = true ∧
        (pr.is_metric = true → info.metric_prefixes = true) ∧
        (pr.is_binary = true → info.binary_prefixes = true) ∧
        ((s = pl ++ u ∧ info.acceptsPrefix.long = true) ∨
          (s = ps ++ u ∧ info.acceptsPrefix.short = true)) := by
  intro p hnd s pr u f hparse hne
  cases hg : unitsGet p.units s with
  | some i =>
    rw [parse_of_unitsGet_some p s i hg] at hparse
    injection hparse with h1 h2 h3
    exact absurd h1.symm hne
  | none =>
    rw [parse_of_unitsGet_none p s hg] at hparse
    rcases parseLoop_result p.units s table with hid | ⟨e, he, hstep⟩
    · rw [hparse] at hid
      cases hid
    · rw [hparse] at hstep
      obtain ⟨pl, ps, k⟩ := e
      rcases parseStep_some_inv p.units s pl ps k _ hstep with ⟨hl, hr⟩ | ⟨hs, hr⟩
      · injection hr with h1 h2 h3
        rw [longMatches_iff] at hl
        obtain ⟨hp, U, info, hmem, hbit, hfam, hU⟩ := hl
        have hu : U = u := by rw [hU, h2]
        subst hu
        have hget : unitsGet p.units U = some info := unitsGet_of_mem p.units U info hnd hmem
        have hseq : s = pl ++ U := by
          rw [hU]
          exact (List.prefix_iff_eq_append.mp hp).symm
        subst h1
        obtain ⟨hmet, hbin⟩ := family_matches_bits _ _ _ hfam
        exact ⟨pl, ps, he, info, hget, hfam, hmet, hbin, .inl ⟨hseq, hbit⟩⟩
      · injection hr with h1 h2 h3
        rw [shortMatches_iff] at hs
        obtain ⟨hp, U, info, hmem, hbit, hfam, hU⟩ := hs
        have hu : U = u := by rw [hU, h2]
        subst hu
        have hget : unitsGet p.units U = some info := unitsGet_of_mem p.units U info hnd hmem
        have hseq : s = ps ++ U := by
          rw [hU]
          exact (List.prefix_iff_eq_append.mp hp).symm
        subst h1
        obtain ⟨hmet, hbin⟩ := family_matches_bits _ _ _ hfam
        exact ⟨pl, ps, he, info, hget, hfam, hmet, hbin, .inr ⟨hseq, hbit⟩⟩

/-- Witness for C2 at the seed parser and the input `km`. -/
theorem prefix_consistency_witness :
    ∃ pl ps, (pl, ps, Pfx.Metric 3) ∈ table ∧ ∃ info,
      unitsGet seedParser.units mS = some info ∧
      family_matches (Pfx.Metric 3) info.metric_prefixes info.binary_prefixes = true ∧
      ((Pfx.Metric 3).is_metric = true → info.metric_prefixes = true) ∧
      ((Pfx.Metric 3).is_binary = true → info.binary_prefixes = true) ∧
      (("km".toList = pl ++ mS ∧ info.acceptsPrefix.long = true) ∨
        ("km".toList = ps ++ mS ∧ info.acceptsPrefix.short = true)) :=
  prefix_consistency seedParser (by decide) "km".toList (Pfx.Metric 3) mS meterS
    (by decide) (by decide)

/-- Claim C9: within a single table entry the long-form check precedes the
short-form check: if an input is not a registered unit, no earlier table
entry matches, and both the long and the short guard of one entry match,
`parse` returns the long-form decomposition. -/
theorem long_before_short : ∀ (p : PrefixParser) (input pl ps : Str) (k : Pfx)
    (pre post : List (Str × Str × Pfx)),
    table = pre ++ (pl, ps, k) :: post →
    unitsGet p.units input = Option.none →
    (∀ e ∈ pre, parseStep p.units input e = Option.none) →
    longMatches p.units k pl input = true →
    shortMatches p.units k ps input = true →
    p.parse input = .UnitIdentifier k (input.drop pl.length)
      (lookupFullName p.units (input.drop pl.length)) := by
  intro p input pl ps k pre post htab hget hpre hl hs
  rw [parse_of_unitsGet_none p input hget, htab,
    parseLoop_append_none p.units input pre _ hpre]
  have hstep : parseStep p.units input (pl, ps, k) =
      some (.UnitIdentifier k (input.drop pl.length)
        (lookupFullName p.units (input.drop pl.length))) := by
    unfold parseStep
    rw [if_pos hl]
  simp only [parseLoop, hstep]

/-- Witness for C9: in a registry with units `x` (long, metric) and `ilox`
(short, metric), the token `kilox` decomposes both ways under the `kilo`/`k`
entry and resolves long-form, as `kilo ++ x`. -/
theorem long_before_short_witness :
    p9.parse "kilox".toList = .UnitIdentifier (Pfx.Metric 3) xS xS :=
  long_before_short p9 "kilox".toList "kilo".toList "k".toList (Pfx.Metric 3)
    (table.take 14) (table.drop 15) (by decide) (by decide) (by decide)
    (by decide) (by decide)

/-- Claim C10: the registry lookups behind the two `.unwrap()` calls of
`parse` cannot panic: whenever the guard of the long-form (resp. short-form)
branch holds, the lookup of the candidate suffix finds a registry entry. -/
theorem unwrap_safe : ∀ (us : Units) (input pl ps : Str) (k : Pfx),
    (longMatches us k pl input = true →
      (findEntry us (input.drop pl.length)).isSome = true) ∧
    (shortMatches us k ps input = true →
      (findEntry us (input.drop ps.length)).isSome = true) := by
  intro us input pl ps k
  constructor
  · intro h
    rw [longMatches_iff] at h
    obtain ⟨-, U, info, hmem, -, -, hU⟩ := h
    exact List.find?_isSome.mpr ⟨(U, info), hmem, by simp [hU]⟩
  · intro h
    rw [shortMatches_iff] at h
    obtain ⟨-, U, info, hmem, -, -, hU⟩ := h
    exact List.find?_isSome.mpr ⟨(U, info), hmem, by simp [hU]⟩

/-- Witness for C10 at the seed parser and the input `kilometer` under the
`kilo` entry. -/
theorem unwrap_safe_witness :
    (findEntry seedParser.units ("kilometer".toList.drop "kilo".toList.length)).isSome = true :=
  (unwrap_safe seedParser.units "kilometer".toList "kilo".toList "k".toList
    (Pfx.Metric 3)).1 (by decide)

/-- Claim C6: registration is atomic: a failing `add_unit` or
`add_other_identifier` call leaves the parser state exactly as it was; in
particular `parse` behaves identically after a failed `add_unit`. -/
theorem registration_atomic : ∀ (p : PrefixParser) (u : Str) (ap : AcceptsPrefix)
    (m b : Bool) (fn i : Str) (e1 e2 : NameResolutionError),
    ((add_unit p u ap m b fn).1 = .error e1 →
      (add_unit p u ap m b fn).2 = p ∧
        ∀ s, ((add_unit p u ap m b fn).2).parse s = p.parse s) ∧
    ((add_other_identifier p i).1 = .error e2 →
      (add_other_identifier p i).2 = p) := by
  intro p u ap m b fn i e1 e2
  refine ⟨fun h => ?_, fun h => add_other_error_inv p i e2 h⟩
  have h2 := add_unit_error_inv p u ap m b fn e1 h
  exact ⟨h2, fun s => by rw [h2]⟩

/-- Witness for C6: re-registering `meter` (as a unit or as an other
identifier) after `meter` fails and leaves the state unchanged. -/
theorem registration_atomic_witness :
    (add_unit s1.2 meterS AcceptsPrefix.only_long true false meterS).2 = s1.2 ∧
      (add_other_identifier s1.2 meterS).2 = s1.2 :=
  ⟨((registration_atomic s1.2 meterS AcceptsPrefix.only_long true false meterS meterS
      (.IdentifierClash meterS) (.IdentifierClash meterS)).1 (by decide)).1,
    (registration_atomic s1.2 meterS AcceptsPrefix.only_long true false meterS meterS
      (.IdentifierClash meterS) (.IdentifierClash meterS)).2 (by decide)⟩

/-- Claim C1: the five seed registrations succeed and `parse` reproduces the
complete seed table of the spec: the five exact matches, the eleven prefixed
decompositions, and the eight plain identifiers. -/
theorem seed_scenario :
    s1.1 = .ok () ∧ s2.1 = .ok () ∧ s3.1 = .ok () ∧ s4.1 = .ok () ∧ s5.1 = .ok () ∧
    seedParser.parse meterS = .UnitIdentifier Pfx.none meterS meterS ∧
    seedParser.parse mS = .UnitIdentifier Pfx.none mS meterS ∧
    seedParser.parse byteS = .UnitIdentifier Pfx.none byteS byteS ∧
    seedParser.parse bS = .UnitIdentifier Pfx.none bS byteS ∧
    seedParser.parse meS = .UnitIdentifier Pfx.none meS meS ∧
    seedParser.parse "kilometer".toList = .UnitIdentifier (Pfx.Metric 3) meterS meterS ∧
    seedParser.parse "millimeter".toList = .UnitIdentifier (Pfx.Metric (-3)) meterS meterS ∧
    seedParser.parse "kilobyte".toList = .UnitIdentifier (Pfx.Metric 3) byteS byteS ∧
    seedParser.parse "kibibyte".toList = .UnitIdentifier (Pfx.Binary 10) byteS byteS ∧
    seedParser.parse "mebibyte".toList = .UnitIdentifier (Pfx.Binary 20) byteS byteS ∧
    seedParser.parse "km".toList = .UnitIdentifier (Pfx.Metric 3) mS meterS ∧
    seedParser.parse "mm".toList = .UnitIdentifier (Pfx.Metric (-3)) mS meterS ∧
    seedParser.parse "kB".toList = .UnitIdentifier (Pfx.Metric 3) bS byteS ∧
    seedParser.parse "MB".toList = .UnitIdentifier (Pfx.Metric 6) bS byteS ∧
    seedParser.parse "KiB".toList = .UnitIdentifier (Pfx.Binary 10) bS byteS ∧
    seedParser.parse "MiB".toList = .UnitIdentifier (Pfx.Binary 20) bS byteS ∧
    seedParser.parse "kilom".toList = .Identifier "kilom".toList ∧
    seedParser.parse "kilome".toList = .Identifier "kilome".toList ∧
    seedParser.parse "kme".toList = .Identifier "kme".toList ∧
    seedParser.parse "kilomete".toList = .Identifier "kilomete".toList ∧
    seedParser.parse "kilometerr".toList = .Identifier "kilometerr".toList ∧
    seedParser.parse "foometer".toList = .Identifier "foometer".toList ∧
    seedParser.parse "kibimeter".toList = .Identifier "kibimeter".toList ∧
    seedParser.parse "Kim".toList = .Identifier "Kim".toList := by
  exact ⟨rfl, rfl, rfl, rfl, rfl, rfl, rfl, rfl, rfl, rfl, rfl, rfl, rfl, rfl, rfl,
    rfl, rfl, rfl, rfl, rfl, rfl, rfl, rfl, rfl, rfl, rfl, rfl, rfl, rfl⟩

/-- Counterexample to claim C5 as stated: after registering `meter`
(long, metric) and `m` (short, metric), `add_other_identifier "kilom"`
returns `Ok`, not an `IdentifierClash` error — `kilom` is not a prefixed
form of any registered unit, because `m` accepts only short prefix forms
while `kilo` is a long form. -/
theorem kilom_clash_counterexample :
    (add_other_identifier s2.2 "kilom".toList).1 = Except.ok () ∧
      (add_other_identifier s2.2 "kilom".toList).1 ≠
        Except.error (NameResolutionError.IdentifierClash "kilom".toList) := by
  exact ⟨rfl, by decide⟩

/-- Claim C5 (amended): after `add_unit "meter"` (only long, metric) and
`add_unit "m"` (only short, metric) succeed on the empty parser,
`add_other_identifier "kilom"` succeeds, returning `Ok` and adding `kilom`
to the other-identifier set. -/
theorem kilom_other_identifier_ok :
    (add_other_identifier s2.2 "kilom".toList).1 = Except.ok () ∧
      "kilom".toList ∈ (add_other_identifier s2.2 "kilom".toList).2.other_identifiers := by
  exact ⟨rfl, by decide⟩

end Numbat
